import Mathlib

/-!
Shallow embedding of the MgmtSays NLP pipeline (backend/src/nlp): the
initiative deduplicator, the initiative extractor's post-processing, the
semantic and structural chunkers, the retrieval/reranking operations and the
document-parser dispatch.  Python strings are modelled as Lean `String`s with
ASCII case folding, Python floats as `ℚ`, Python dicts as structures whose
fields are the keys the code reads.  External model calls (DSPy comparator,
merger, extractor LLM, the LlamaIndex sentence splitter, the vector store) are
modelled as explicit parameters; the deterministic fallback paths are
translated from the source.
-/

namespace MgmtSays

/-! ## Python string primitives -/

/-- ASCII whitespace as recognised by Python `str.split()` / `str.strip()`. -/
def pyWs (c : Char) : Bool :=
  c == ' ' || c == '\t' || c == '\n' || c == '\r' || c == '\x0b' || c == '\x0c'

/-- Python `str.lower()` (ASCII case folding). -/
def pyLower (s : String) : String :=
  String.mk (s.toList.map Char.toLower)

/-- Python `str.strip()`: remove leading and trailing whitespace. -/
def pyStrip (s : String) : String :=
  String.mk (((s.toList.dropWhile pyWs).reverse.dropWhile pyWs).reverse)

/-- Worker for `pySplitWs`; the fuel is an upper bound on the list length. -/
def splitWsAux : Nat → List Char → List (List Char)
  | _, [] => []
  | 0, l => [l]
  | fuel + 1, c :: cs =>
    if pyWs c then splitWsAux fuel cs
    else (c :: cs.takeWhile (fun x => !pyWs x)) :: splitWsAux fuel (cs.dropWhile (fun x => !pyWs x))

/-- Python `str.split()` (no argument): maximal runs of non-whitespace. -/
def pySplitWs (s : String) : List String :=
  (splitWsAux s.toList.length s.toList).map String.mk

/-- Python `sep.join(parts)`. -/
def joinSep (sep : String) : List String → String
  | [] => ""
  | [x] => x
  | x :: xs => x ++ sep ++ joinSep sep xs

/-- Worker for `pySplitOn`; the fuel is an upper bound on the list length. -/
def splitOnAux (sep : List Char) : Nat → List Char → List Char → List (List Char)
  | _, acc, [] => [acc.reverse]
  | 0, acc, l => [acc.reverse ++ l]
  | fuel + 1, acc, c :: cs =>
    if sep.isPrefixOf (c :: cs) then
      acc.reverse :: splitOnAux sep fuel [] ((c :: cs).drop sep.length)
    else splitOnAux sep fuel (c :: acc) cs

/-- Python `s.split(sep)` for a non-empty separator. -/
def pySplitOn (sep : String) (s : String) : List String :=
  (splitOnAux sep.toList s.toList.length [] s.toList).map String.mk

/-- Python `needle in hay` (substring containment). -/
def containsSub (needle hay : String) : Bool :=
  hay.toList.tails.any (fun t => needle.toList.isPrefixOf t)

/-- Lexicographic `≤` on code points (Python string comparison). -/
def lexLe : List Char → List Char → Bool
  | [], _ => true
  | _ :: _, [] => false
  | a :: as, b :: bs =>
    if a.toNat < b.toNat then true
    else if b.toNat < a.toNat then false
    else lexLe as bs

/-- Python `s <= t` on strings. -/
def strLeB (s t : String) : Bool :=
  lexLe s.toList t.toList

/-- The final path component of a POSIX path (Python `Path(s).name`). -/
def lastComponent (s : String) : List Char :=
  (s.toList.reverse.takeWhile (fun c => c != '/')).reverse

/-- Python `Path(filename).suffix`: the extension of the last path component,
starting at its last dot, empty when the dot is absent, first or last. -/
def pySuffix (filename : String) : String :=
  let name := lastComponent filename
  let r := name.reverse
  let after := r.takeWhile (fun c => c != '.')
  match r.dropWhile (fun c => c != '.') with
  | [] => ""
  | _ :: pre =>
    if pre = [] then ""
    else if after = [] then ""
    else String.mk ('.' :: after.reverse)

/-- Python `int(s)` on an optional-sign digit string. -/
def parseDigits (l : List Char) : Option Nat :=
  if l = [] then none
  else l.foldl (fun acc c =>
    match acc with
    | none => none
    | some n => if c.isDigit then some (n * 10 + (c.toNat - '0'.toNat)) else none) (some 0)

/-- Python `int(s)` (raises, i.e. `none`, on non-numeric input). -/
def pyInt (s : String) : Option Int :=
  match s.toList with
  | '-' :: rest => (parseDigits rest).map (fun n => -(n : Int))
  | l => (parseDigits l).map (fun n => (n : Int))

/-- Python `s.rsplit(sep, 1)` restricted to the case where the separator
occurs: returns the parts around the rightmost occurrence. -/
def rsplitLast (sep : List Char) : List Char → Option (List Char × List Char)
  | [] => none
  | c :: cs =>
    match rsplitLast sep cs with
    | some (p, suf) => some (c :: p, suf)
    | none =>
      if sep.isPrefixOf (c :: cs) then some ([], (c :: cs).drop sep.length) else none

/-! ## Python `sorted` (stable insertion sort; `le a b` means `a` may precede `b`) -/

variable {α : Type*}

/-- Insert `x` after every element that may precede it (stability). -/
def pyInsert (le : α → α → Bool) (x : α) : List α → List α
  | [] => [x]
  | y :: ys => if le y x then y :: pyInsert le x ys else x :: y :: ys

/-- Python `sorted(l, key=...)`: stable sort with respect to `le`. -/
def pySort (le : α → α → Bool) (l : List α) : List α :=
  l.foldl (fun acc x => pyInsert le x acc) []

/-! ## Deduplicator (`dspy_programs/deduplicator.py`)

An initiative record models the Python dict flowing through the deduplicator:
the keys written by the extractor plus the keys added by merging.  Absent keys
are `none` / `[]`. -/

structure InitRec where
  name : String
  description : String
  category : String
  timeline : Option String
  metrics : List String
  confidence : ℚ
  evidence_quote : Option String
  source_chunk_id : Option String
  evidence_quotes : List String
  source_chunk_ids : List String
  merged_count : Option Nat
  deriving DecidableEq

/-- `f"{init.get('name', '')}: {init.get('description', '')}"` as built by
`_compare_initiatives`. -/
def initText (i : InitRec) : String :=
  i.name ++ ": " ++ i.description

/-- `set(text.lower().split())`. -/
def wordSet (s : String) : List String :=
  (pySplitWs (pyLower s)).dedup

/-- `InitiativeDeduplicator._simple_compare`: Jaccard word overlap against the
similarity threshold. -/
def simpleCompare (threshold : ℚ) (text_a text_b : String) : Bool × ℚ :=
  let words_a := wordSet text_a
  let words_b := wordSet text_b
  if words_a = [] ∨ words_b = [] then (false, 0)
  else
    let intersection := (words_a.filter (fun w => w ∈ words_b)).length
    let union := ((words_a ++ words_b).dedup).length
    let score : ℚ := if 0 < union then (intersection : ℚ) / (union : ℚ) else 0
    (threshold ≤ score, score)

/-- Worker for `_find_duplicate_groups`; the comparison outcome of the
(possibly model-backed) pairwise test is abstracted as `c` on the two texts,
matching `_compare_initiatives(text_a, text_b)`.  The fuel is an upper bound
on the list length. -/
def findGroupsAux (c : String → String → Bool) : Nat → List InitRec → List (List InitRec)
  | _, [] => []
  | 0, l => [l]
  | fuel + 1, a :: rest =>
    let p := rest.partition (fun b => c (initText a) (initText b))
    (a :: p.1) :: findGroupsAux c fuel p.2

/-- `InitiativeDeduplicator._find_duplicate_groups`: greedy grouping in input
order; each not-yet-grouped candidate seeds a group and absorbs every later
not-yet-grouped candidate passing the pairwise test against the seed. -/
def findDuplicateGroups (c : String → String → Bool) (inits : List InitRec) :
    List (List InitRec) :=
  findGroupsAux c inits.length inits

/-- Python truthiness of an optional string key (`init.get(k)` used in `if`). -/
def truthyStr : Option String → Option String
  | some s => if s = "" then none else some s
  | none => none

/-- Output of the model-backed merge call (`MergeSignature`), an explicit
parameter of the merge step. -/
structure MergerOut where
  canonical_name : String
  canonical_description : String
  combined_metrics : List String
  combined_timeline : String
  deriving DecidableEq

/-- `_merge_group`'s exception fallback: first initiative with the combined
sources and the merge count. -/
def mergeFallback (group : List InitRec) : InitRec :=
  match group with
  | [] =>
    { name := "", description := "", category := "", timeline := none, metrics := [],
      confidence := 0, evidence_quote := none, source_chunk_id := none,
      evidence_quotes := [], source_chunk_ids := [], merged_count := none }
  | x :: _ =>
    { x with
      merged_count := some group.length,
      source_chunk_ids := group.filterMap (fun i => truthyStr i.source_chunk_id) }

/-- `InitiativeDeduplicator._merge_group`, success path: the model proposes
name/description/metrics/timeline (`mo`), everything else is combined
deterministically from the group. -/
def mergeGroup (mo : MergerOut) (group : List InitRec) : InitRec :=
  match group with
  | [x] => x
  | _ =>
    let all_evidence := group.filterMap (fun i => truthyStr i.evidence_quote)
    let all_metrics := group.flatMap (fun i => i.metrics)
    let all_sources := group.filterMap (fun i => truthyStr i.source_chunk_id)
    let best := group.foldl
      (fun s i => if s.1 < i.confidence then (i.confidence, i.category) else s)
      (0, (group.head?.map (fun i => i.category)).getD "strategy")
    { name := mo.canonical_name,
      description := mo.canonical_description,
      category := best.2,
      timeline :=
        if mo.combined_timeline = "" then group.head?.bind (fun i => i.timeline)
        else some mo.combined_timeline,
      metrics := (mo.combined_metrics ++ all_metrics).dedup,
      confidence := best.1,
      evidence_quote := none,
      source_chunk_id := none,
      evidence_quotes := all_evidence,
      source_chunk_ids := all_sources,
      merged_count := some group.length }

/-- The per-group step of `forward`: singleton groups pass through unchanged,
larger groups are merged. -/
def groupRep (merge : List InitRec → InitRec) : List InitRec → InitRec
  | [x] => x
  | g => merge g

/-- `InitiativeDeduplicator.forward` with the pairwise comparison `c` and the
merge step `merge` explicit. -/
def forward (c : String → String → Bool) (merge : List InitRec → InitRec)
    (inits : List InitRec) : List InitRec :=
  (findDuplicateGroups c inits).map (groupRep merge)

/-- Worker for `chunksOf`; the fuel is an upper bound on the list length. -/
def chunksOfAux (bs : Nat) : Nat → List α → List (List α)
  | _, [] => []
  | 0, l => [l]
  | fuel + 1, l => l.take bs :: chunksOfAux bs fuel (l.drop bs)

/-- `initiatives[i:i+batch_size]` slices for `i in range(0, len, batch_size)`. -/
def chunksOf (bs : Nat) (l : List α) : List (List α) :=
  chunksOfAux bs l.length l

/-- One pass of `deduplicate_batch`: either a final result (`Sum.inl`) or the
argument of the recursive call (`Sum.inr`). -/
def dedupStep (c : String → String → Bool) (merge : List InitRec → InitRec) (bs : Nat)
    (inits : List InitRec) : List InitRec ⊕ List InitRec :=
  if inits.length ≤ bs then Sum.inl (forward c merge inits)
  else
    let all_merged := (chunksOf bs inits).flatMap (forward c merge)
    if bs < all_merged.length then Sum.inr all_merged
    else Sum.inl (forward c merge all_merged)

/-- `InitiativeDeduplicator.deduplicate_batch`, fuel-indexed: `none` when the
source recursion would still be running after `fuel` recursive calls. -/
def dedupBatchFuel (c : String → String → Bool) (merge : List InitRec → InitRec)
    (bs : Nat) : Nat → List InitRec → Option (List InitRec)
  | 0, inits =>
    match dedupStep c merge bs inits with
    | Sum.inl r => some r
    | Sum.inr _ => none
  | fuel + 1, inits =>
    match dedupStep c merge bs inits with
    | Sum.inl r => some r
    | Sum.inr next => dedupBatchFuel c merge bs fuel next

/-! ## Extractor (`dspy_programs/initiative_extractor.py`) -/

/-- The closed category vocabulary. -/
def validCategories : List String :=
  ["strategy", "product", "market", "operational", "financial"]

/-- The alias table of `_normalize_category`. -/
def categoryAliases : List (String × String) :=
  [("strategic", "strategy"), ("products", "product"), ("marketing", "market"),
   ("operations", "operational"), ("finance", "financial"), ("growth", "strategy"),
   ("expansion", "market"), ("cost", "operational"), ("revenue", "financial")]

/-- `InitiativeExtractor._normalize_category`. -/
def normalizeCategory (category : String) : String :=
  let normalized := pyStrip (pyLower category)
  if normalized ∈ validCategories then normalized
  else (categoryAliases.lookup normalized).getD "strategy"

/-- The `confidence` value of a raw model item: absent, a number, or a value
on which `float(...)` raises. -/
inductive RawConf
  | missing
  | num (q : ℚ)
  | invalid
  deriving DecidableEq

/-- A raw item of the model's `initiatives` output, keys as read by
`InitiativeExtractor.forward`. -/
structure RawInit where
  name : Option String
  description : Option String
  category : Option String
  timeline : Option String
  metrics : Option (List String)
  confidence : RawConf
  evidence_quote : Option String
  deriving DecidableEq

/-- The `ExtractedInitiative` pydantic model. -/
structure ExtractedInitiative where
  name : String
  description : String
  category : String
  timeline : Option String
  metrics : List String
  confidence : ℚ
  evidence_quote : String
  deriving DecidableEq

/-- `float(init_dict.get("confidence", 0.5))`: default on a missing key,
`none` (exception) on a non-convertible value. -/
def floatOfConf : RawConf → Option ℚ
  | RawConf.missing => some (mkRat 1 2)
  | RawConf.num q => some q
  | RawConf.invalid => none

/-- The per-item construction in `InitiativeExtractor.forward`; `none` when
the `try` body raises and the item is skipped. -/
def buildInitiative (r : RawInit) : Option ExtractedInitiative :=
  (floatOfConf r.confidence).map (fun conf =>
    { name := r.name.getD "",
      description := r.description.getD "",
      category := normalizeCategory (r.category.getD "strategy"),
      timeline := r.timeline,
      metrics := r.metrics.getD [],
      confidence := conf,
      evidence_quote := r.evidence_quote.getD "" })

/-- The item loop of `InitiativeExtractor.forward` over the model's raw
items. -/
def extractorForward (raws : List RawInit) : List ExtractedInitiative :=
  raws.filterMap buildInitiative

/-! ## Chunkers (`chunking/semantic.py`, `chunking/structural.py`) -/

/-- A chunk (the `Chunk` dataclass restricted to the fields the verified
properties read). -/
structure Chunk where
  id : String
  text : String
  deriving DecidableEq

/-- A page dict as read by `StructuralChunker._chunk_page`
(`page.get("page_number", 1)`, `page.get("text", "")`). -/
structure Page where
  page_number : Option Int
  text : String
  deriving DecidableEq

/-- A section dict as read by `StructuralChunker._chunk_section`. -/
structure DocSection where
  heading : String
  content : List String
  speaker_role : Option String
  deriving DecidableEq

/-- A table dict as read by `StructuralChunker._chunk_tables`. -/
structure DocTable where
  page : Option Int
  data : List (List String)
  deriving DecidableEq

/-- `ParsedDocument` restricted to the fields the chunkers read. -/
structure ParsedDocument where
  text : String
  pages : Option (List Page)
  sections : Option (List DocSection)
  tables : Option (List DocTable)
  deriving DecidableEq

/-- One iteration of the word loop in `_chunk_page` (state: emitted chunks,
current words, current length). -/
def pageStep (M : Nat) (docId : String) (pageNum : Int)
    (s : List Chunk × List String × Nat) (word : String) :
    List Chunk × List String × Nat :=
  let wl := word.length + 1
  let s' :=
    if M < s.2.2 + wl ∧ s.2.1 ≠ [] then
      (s.1 ++ [⟨docId ++ "_page_" ++ toString pageNum ++ "_part_" ++ toString s.1.length,
        joinSep " " s.2.1⟩], ([] : List String), 0)
    else s
  (s'.1, s'.2.1 ++ [word], s'.2.2 + wl)

/-- `StructuralChunker._chunk_page`. -/
def chunkPage (M : Nat) (docId : String) (page : Page) : List Chunk :=
  let text := page.text
  let pageNum := page.page_number.getD 1
  if text.length ≤ M then
    [⟨docId ++ "_page_" ++ toString pageNum, text⟩]
  else
    let s := (pySplitWs text).foldl (pageStep M docId pageNum) ([], [], 0)
    s.1 ++
      (if s.2.1 ≠ [] then
        [⟨docId ++ "_page_" ++ toString pageNum ++ "_part_" ++ toString s.1.length,
          joinSep " " s.2.1⟩]
      else [])

/-- `f"[Continued from: {heading}]"`. -/
def continuedMarker (heading : String) : String :=
  "[Continued from: " ++ heading ++ "]"

/-- One iteration of the paragraph loop in `_chunk_section`. -/
def sectionStep (M : Nat) (docId : String) (sectionIdx : Nat) (heading : String)
    (s : List Chunk × List String × Nat) (para : String) :
    List Chunk × List String × Nat :=
  let s' :=
    if M < s.2.2 + para.length ∧ 1 < s.2.1.length then
      (s.1 ++ [⟨docId ++ "_section_" ++ toString sectionIdx ++ "_part_" ++ toString s.1.length,
        joinSep "\n\n" s.2.1⟩],
       if heading ≠ "" then [continuedMarker heading] else [],
       if heading ≠ "" then (continuedMarker heading).length else 0)
    else s
  (s'.1, s'.2.1 ++ [para], s'.2.2 + para.length)

/-- `StructuralChunker._chunk_section`. -/
def chunkSection (M : Nat) (docId : String) (sectionIdx : Nat) (sec : DocSection) :
    List Chunk :=
  let heading := sec.heading
  let text := joinSep "\n" sec.content
  let full_text := if heading ≠ "" then heading ++ "\n\n" ++ text else text
  if full_text.length ≤ M then
    [⟨docId ++ "_section_" ++ toString sectionIdx, full_text⟩]
  else
    let s := (pySplitOn "\n\n" text).foldl (sectionStep M docId sectionIdx heading)
      ([], if heading ≠ "" then [heading] else [],
       if heading ≠ "" then heading.length else 0)
    s.1 ++
      (if s.2.1 ≠ [] then
        [⟨docId ++ "_section_" ++ toString sectionIdx ++ "_part_" ++ toString s.1.length,
          joinSep "\n\n" s.2.1⟩]
      else [])

/-- One iteration of the paragraph loop in `_chunk_text`. -/
def textStep (M : Nat) (docId : String)
    (s : List Chunk × List String × Nat) (para : String) :
    List Chunk × List String × Nat :=
  let s' :=
    if M < s.2.2 + para.length ∧ s.2.1 ≠ [] then
      (s.1 ++ [⟨docId ++ "_chunk_" ++ toString s.1.length, joinSep "\n\n" s.2.1⟩],
       ([] : List String), 0)
    else s
  (s'.1, s'.2.1 ++ [para], s'.2.2 + para.length)

/-- `StructuralChunker._chunk_text` (fallback paragraph chunking). -/
def chunkTextFallback (M : Nat) (docId : String) (text : String) : List Chunk :=
  let s := (pySplitOn "\n\n" text).foldl (textStep M docId) ([], [], 0)
  s.1 ++
    (if s.2.1 ≠ [] then
      [⟨docId ++ "_chunk_" ++ toString s.1.length, joinSep "\n\n" s.2.1⟩]
    else [])

/-- `StructuralChunker._table_to_text` (markdown rendering). -/
def tableToText (data : List (List String)) : String :=
  if data = [] then ""
  else
    joinSep "\n" (data.enum.flatMap (fun p =>
      let line := "| " ++ joinSep " | " p.2 ++ " |"
      if p.1 = 0 then [line, "| " ++ joinSep " | " (p.2.map (fun _ => "---")) ++ " |"]
      else [line]))

/-- `StructuralChunker._chunk_tables`. -/
def chunkTables (docId : String) (tables : List DocTable) : List Chunk :=
  tables.enum.map (fun p => ⟨docId ++ "_table_" ++ toString p.1, tableToText p.2.data⟩)

/-- `StructuralChunker.chunk_document` (with `include_tables = True`): pages,
else sections, else plain text, plus table chunks. -/
def structuralChunkDocument (M : Nat) (doc : ParsedDocument) (docId : String) :
    List Chunk :=
  let pages := doc.pages.getD []
  let sections := doc.sections.getD []
  let tables := doc.tables.getD []
  let base :=
    if pages ≠ [] then pages.flatMap (chunkPage M docId)
    else if sections ≠ [] then sections.enum.flatMap (fun p => chunkSection M docId p.1 p.2)
    else chunkTextFallback M docId doc.text
  base ++ (if tables ≠ [] then chunkTables docId tables else [])

/-- `SemanticChunker.chunk_document`: the splitter's node contents (external
library output) are the parameter, chunk `i` gets id `{doc}_chunk_{i}`. -/
def semanticChunkDocument (docId : String) (nodeTexts : List String) : List Chunk :=
  nodeTexts.enum.map (fun p => ⟨docId ++ "_chunk_" ++ toString p.1, p.2⟩)

/-! ## Retrieval (`retrieval/reranker.py`, `retrieval/hybrid.py`) -/

/-- The `RetrievalResult` dataclass; of `metadata` only the key the reranker
reads (`speaker_role`) is kept. -/
structure RetrievalResult where
  chunk_id : String
  text : String
  score : ℚ
  speaker_role : Option String
  document_id : Option String
  deriving DecidableEq

/-- `sorted(results, key=lambda r: r.score, reverse=True)` order. -/
def descByScore (a b : RetrievalResult) : Bool :=
  decide (b.score ≤ a.score)

/-- `sorted(results, key=lambda r: r.chunk_id)` order. -/
def ascByChunkId (a b : RetrievalResult) : Bool :=
  strLeB a.chunk_id b.chunk_id

/-- The additive boost of `Reranker._rerank_heuristic` for one result. -/
def heuristicBoost (query : String) (r : RetrievalResult) : ℚ :=
  let query_terms := wordSet query
  let text_terms := wordSet r.text
  let overlap := (query_terms.filter (fun w => w ∈ text_terms)).length
  let coverage : ℚ := if query_terms ≠ [] then (overlap : ℚ) / (query_terms.length : ℚ) else 0
  let exact_match := containsSub (pyLower query) (pyLower r.text)
  (if exact_match then mkRat 2 10 else 0) + coverage * mkRat 1 10 +
    (if r.speaker_role ∈ [some "CEO", some "CFO", some "President"] then mkRat 1 10 else 0)

/-- `Reranker._rerank_heuristic`: boost scores, sort descending, truncate. -/
def rerankHeuristic (query : String) (results : List RetrievalResult) (top_k : Nat) :
    List RetrievalResult :=
  (pySort descByScore
    (results.map (fun r => { r with score := r.score + heuristicBoost query r }))).take top_k

/-- The `all_results` dict update of `retrieve_multi_query`: keep the entry
with the higher score per chunk id, preserving first-insertion order. -/
def upsertResult : List RetrievalResult → RetrievalResult → List RetrievalResult
  | [], r => [r]
  | x :: xs, r =>
    if x.chunk_id = r.chunk_id then (if x.score < r.score then r else x) :: xs
    else x :: upsertResult xs r

/-- `HybridRetriever.retrieve_multi_query`, the per-query retrieval outputs
being the parameter. -/
def retrieveMultiQuery (perQueryResults : List (List RetrievalResult)) (top_k : Nat) :
    List RetrievalResult :=
  (pySort descByScore ((perQueryResults.flatMap id).foldl upsertResult [])).take top_k

/-- A stored chunk record as returned by `index_manager.get_document_chunks`. -/
structure ChunkRec where
  id : String
  text : String
  deriving DecidableEq

/-- The id parsing of `get_context_window`: `chunk_id.rsplit("_chunk_", 1)`
followed by `int(parts[1])`; `none` models the two early `return []`s. -/
def parseChunkId (chunkId : String) : Option (String × Int) :=
  match rsplitLast "_chunk_".toList chunkId.toList with
  | none => none
  | some (docChars, idxChars) =>
    match pyInt (String.mk idxChars) with
    | none => none
    | some center => some (String.mk docChars, center)

/-- The window lookup loop of `get_context_window`. -/
def contextWindowHits (chunkId document_id : String) (center : Int)
    (companyChunks : List ChunkRec) (windowSize : Nat) : List RetrievalResult :=
  (List.range (2 * windowSize + 1)).filterMap (fun (k : Nat) =>
    let i : Int := center - (windowSize : Int) + (k : Int)
    let target := document_id ++ "_chunk_" ++ toString i
    (companyChunks.find? (fun ch => ch.id == target)).map (fun ch =>
      { chunk_id := ch.id, text := ch.text,
        score := if ch.id == chunkId then 1 else mkRat 9 10,
        speaker_role := none, document_id := some document_id }))

/-- `HybridRetriever.get_context_window`: parse the centre id, look up each id
in the window, score the centre 1.0 and neighbours 0.9, sort by chunk id. -/
def getContextWindow (chunkId : String) (companyChunks : List ChunkRec)
    (windowSize : Nat) : List RetrievalResult :=
  match parseChunkId chunkId with
  | none => []
  | some (document_id, center) =>
    pySort ascByChunkId (contextWindowHits chunkId document_id center companyChunks windowSize)

/-! ## Parser dispatch (`ingestion/parser.py` and the parsers' `supports`) -/

/-- The registered parser implementations. -/
inductive ParserKind
  | pdf
  | docx
  | pptx
  | transcript
  | text
  deriving DecidableEq

/-- The transcript filename keywords. -/
def transcriptKeywords : List String :=
  ["transcript", "earnings", "call", "conference"]

/-- Each parser's `supports(filename)`. -/
def supports : ParserKind → String → Bool
  | ParserKind.pdf, filename => pyLower (pySuffix filename) == ".pdf"
  | ParserKind.docx, filename => [".docx", ".doc"].contains (pyLower (pySuffix filename))
  | ParserKind.pptx, filename => [".pptx", ".ppt"].contains (pyLower (pySuffix filename))
  | ParserKind.transcript, filename =>
    [".html", ".htm"].contains (pyLower (pySuffix filename)) &&
      transcriptKeywords.any (fun kw => containsSub kw (pyLower filename))
  | ParserKind.text, filename =>
    [".txt", ".md", ".markdown", ".rst", ".text"].contains (pyLower (pySuffix filename))

/-- `DocumentParser._register_parsers` order: specialized formats first, the
plain-text fallback last. -/
def registeredParsers : List ParserKind :=
  [ParserKind.pdf, ParserKind.docx, ParserKind.pptx, ParserKind.transcript, ParserKind.text]

/-- `DocumentParser.parse` dispatch: the first supporting parser wins (its
`parse` call is external I/O, so the dispatch returns which parser runs);
`ValueError(f"Unsupported file type: {Path(filename).suffix}")` otherwise. -/
def parseDispatch (filename : String) : Except String ParserKind :=
  match registeredParsers.find? (fun p => supports p filename) with
  | some p => Except.ok p
  | none => Except.error ("Unsupported file type: " ++ pySuffix filename)

/-! ## Concrete instances used in the verification -/

/-- An extractor-shaped initiative record with the given name and description. -/
def mkInit (n d : String) : InitRec :=
  { name := n, description := d, category := "strategy", timeline := none, metrics := [],
    confidence := 1, evidence_quote := none, source_chunk_id := none,
    evidence_quotes := [], source_chunk_ids := [], merged_count := none }

def iA : InitRec := mkInit "alpha" "one"

def iB : InitRec := mkInit "beta" "two"

def iC : InitRec := mkInit "gamma" "three"

/-- A deterministic pairwise test with `A ~ B` and `B ~ C` but not `A ~ C`. -/
def cEx (s t : String) : Bool :=
  (s == initText iA && t == initText iB) || (s == initText iB && t == initText iC)

/-- A pairwise test that finds no duplicates at all. -/
def noDupCompare : String → String → Bool := fun _ _ => false

/-- 51 candidates — one more than the default batch size of 50. -/
def batchInput : List InitRec := List.replicate 51 (mkInit "init" "desc")

def moEx : MergerOut :=
  { canonical_name := "m", canonical_description := "md", combined_metrics := [],
    combined_timeline := "" }

/-- Two members citing the same source chunk. -/
def srcA : InitRec := { mkInit "a" "one" with source_chunk_id := some "chunk-7", confidence := 1 }

def srcB : InitRec := { mkInit "b" "two" with source_chunk_id := some "chunk-7", confidence := 0 }

/-- A raw model item whose confidence is numeric but out of range. -/
def rawOver : RawInit :=
  { name := some "n", description := some "d", category := some "strategy", timeline := none,
    metrics := some [], confidence := RawConf.num 2, evidence_quote := some "q" }

/-- A raw model item on whose confidence `float(...)` raises. -/
def rawBad : RawInit := { rawOver with confidence := RawConf.invalid }

/-- A raw model item without a confidence key. -/
def rawMissing : RawInit := { rawOver with confidence := RawConf.missing }

/-- The item the extractor builds from `rawMissing`. -/
def extHalfItem : ExtractedInitiative :=
  { name := "n", description := "d", category := "strategy", timeline := none,
    metrics := [], confidence := mkRat 1 2, evidence_quote := "q" }

/-- A slide-deck `ParsedDocument`: the pptx parser stores slides in `pages`
under the key `slide_number`, so `page_number` is absent on every slide. -/
def slideDoc : ParsedDocument :=
  { text := "", pages := some [⟨none, "s1"⟩, ⟨none, "s2"⟩], sections := none, tables := none }

/-- A document whose single page has empty text (as the PDF parser emits for
a blank page). -/
def blankPageDoc : ParsedDocument :=
  { text := "", pages := some [{ page_number := some 1, text := "" }], sections := none,
    tables := none }

/-- Three consecutive stored chunks of one document. -/
def ctxChunks : List ChunkRec :=
  [⟨"d_chunk_0", "t0"⟩, ⟨"d_chunk_1", "t1"⟩, ⟨"d_chunk_2", "t2"⟩]

/-- A well-formed one-page document with one table. -/
def pageDocW : ParsedDocument :=
  { text := "", pages := some [⟨some 1, "hello world"⟩], sections := none,
    tables := some [⟨some 1, [["a", "b"]]⟩] }

/-! ## Helper lemmas -/

theorem listPairwiseOfForall {R : α → α → Prop} (h : ∀ a b, R a b) :
    ∀ l : List α, l.Pairwise R
  | [] => List.Pairwise.nil
  | a :: l => List.Pairwise.cons (fun b _ => h a b) (listPairwiseOfForall h l)

theorem lookup_val_mem : ∀ {ps : List (String × String)} {n v : String},
    ps.lookup n = some v → v ∈ ps.map Prod.snd := by
  intro ps
  induction ps with
  | nil => intro n v h; simp [List.lookup] at h
  | cons p ps ih =>
    intro n v h
    rw [List.lookup] at h
    by_cases hn : n == p.1
    · simp [hn] at h
      simp [h]
    · simp [hn] at h
      simp [ih h]

/-! ## Grouping lemmas for the deduplicator -/

/-- Every group is a seed followed by later candidates that passed the
pairwise test against the seed, and the seed comes from the input list. -/
theorem findGroupsAux_spec (c : String → String → Bool) :
    ∀ (fuel : Nat) (l : List InitRec), l.length ≤ fuel →
      ∀ g ∈ findGroupsAux c fuel l, ∃ a t, g = a :: t ∧ a ∈ l ∧
        ∀ b ∈ t, c (initText a) (initText b) = true := by
  intro fuel
  induction fuel with
  | zero =>
    intro l hl g hg
    have : l = [] := List.length_eq_zero.mp (Nat.le_zero.mp hl)
    subst this
    simp [findGroupsAux] at hg
  | succ fuel ih =>
    intro l hl g hg
    cases l with
    | nil => simp [findGroupsAux] at hg
    | cons a rest =>
      simp only [findGroupsAux, List.partition_eq_filter_filter] at hg
      rcases List.mem_cons.mp hg with rfl | hg
      · exact ⟨a, _, rfl, List.mem_cons_self a rest,
          fun b hb => by simpa using List.of_mem_filter hb⟩
      · have hlen : (rest.filter (not ∘ fun b => c (initText a) (initText b))).length ≤ fuel :=
          le_trans (List.length_filter_le _ _) (Nat.succ_le_succ_iff.mp hl)
        obtain ⟨a', t, hgt, ha', hb⟩ := ih _ hlen g hg
        exact ⟨a', t, hgt, List.mem_cons_of_mem a (List.mem_of_mem_filter ha'), hb⟩

/-- The seeds of distinct groups fail the pairwise test in iteration order. -/
theorem findGroupsAux_heads (c : String → String → Bool) :
    ∀ (fuel : Nat) (l : List InitRec), l.length ≤ fuel →
      List.Pairwise (fun g h => ∀ a ∈ g.head?, ∀ b ∈ h.head?,
        c (initText a) (initText b) = false) (findGroupsAux c fuel l) := by
  intro fuel
  induction fuel with
  | zero =>
    intro l hl
    have : l = [] := List.length_eq_zero.mp (Nat.le_zero.mp hl)
    subst this
    simp [findGroupsAux]
  | succ fuel ih =>
    intro l hl
    cases l with
    | nil => simp [findGroupsAux]
    | cons a rest =>
      have hlen : (rest.filter (not ∘ fun b => c (initText a) (initText b))).length ≤ fuel :=
        le_trans (List.length_filter_le _ _) (Nat.succ_le_succ_iff.mp hl)
      simp only [findGroupsAux, List.partition_eq_filter_filter]
      refine List.pairwise_cons.mpr ⟨?_, ih _ hlen⟩
      intro h hh a' ha' b hb
      obtain rfl : a = a' := by simpa using ha'
      obtain ⟨b', t, rfl, hbmem, _⟩ := findGroupsAux_spec c fuel _ hlen h hh
      obtain rfl : b' = b := by simpa using hb
      have := List.of_mem_filter hbmem
      simpa using this

/-- On a list whose members pairwise fail the test, every group is a
singleton. -/
theorem findGroupsAux_of_pairwise_false (c : String → String → Bool) :
    ∀ (fuel : Nat) (l : List InitRec), l.length ≤ fuel →
      l.Pairwise (fun a b => c (initText a) (initText b) = false) →
      findGroupsAux c fuel l = l.map (fun x => [x]) := by
  intro fuel
  induction fuel with
  | zero =>
    intro l hl _
    have : l = [] := List.length_eq_zero.mp (Nat.le_zero.mp hl)
    subst this
    simp [findGroupsAux]
  | succ fuel ih =>
    intro l hl hp
    cases l with
    | nil => simp [findGroupsAux]
    | cons a rest =>
      rcases List.pairwise_cons.mp hp with ⟨ha, hrest⟩
      have h1 : rest.filter (fun b => c (initText a) (initText b)) = [] :=
        List.filter_eq_nil_iff.mpr (fun b hb => by simp [ha b hb])
      have h2 : rest.filter (not ∘ fun b => c (initText a) (initText b)) = rest :=
        List.filter_eq_self.mpr (fun b hb => by simp [ha b hb])
      simp only [findGroupsAux, List.partition_eq_filter_filter, h1, h2]
      rw [ih rest (Nat.succ_le_succ_iff.mp hl) hrest]
      simp

/-- `forward` leaves a pairwise-dissimilar list unchanged. -/
theorem forward_eq_self_of_pairwise_false (c : String → String → Bool)
    (merge : List InitRec → InitRec) (l : List InitRec)
    (hp : l.Pairwise (fun a b => c (initText a) (initText b) = false)) :
    forward c merge l = l := by
  rw [forward, findDuplicateGroups,
    findGroupsAux_of_pairwise_false c l.length l (le_refl _) hp, List.map_map]
  have : (groupRep merge ∘ fun x => [x]) = id := by
    funext x
    rfl
  rw [this, List.map_id]

/-- The fallback merge keeps the seed's name and description, hence its
comparison text. -/
theorem groupRep_text (g : List InitRec) (a : InitRec) (t : List InitRec)
    (hg : g = a :: t) : initText (groupRep mergeFallback g) = initText a := by
  subst hg
  cases t with
  | nil => rfl
  | cons b u => rfl

/-- The representatives emitted by one `forward` pass pairwise fail the
test. -/
theorem forward_output_pairwise (c : String → String → Bool) (l : List InitRec) :
    (forward c mergeFallback l).Pairwise
      (fun x y => c (initText x) (initText y) = false) := by
  rw [forward, List.pairwise_map]
  have hp := findGroupsAux_heads c l.length l (le_refl _)
  rw [findDuplicateGroups]
  refine hp.imp_of_mem ?_
  intro g h hg hh hR
  obtain ⟨a, t, rfl, _, _⟩ := findGroupsAux_spec c l.length l (le_refl _) g hg
  obtain ⟨b, u, rfl, _, _⟩ := findGroupsAux_spec c l.length l (le_refl _) h hh
  rw [groupRep_text _ a t rfl, groupRep_text _ b u rfl]
  exact hR a (by simp) b (by simp)

/-- A comparator that never matches leaves any list unchanged. -/
theorem forward_noDup (merge : List InitRec → InitRec) (l : List InitRec) :
    forward noDupCompare merge l = l :=
  forward_eq_self_of_pairwise_false _ _ l
    (listPairwiseOfForall (fun _ _ => rfl) l)

/-- Concatenating the batch slices reproduces the list, also after a
per-slice identity map. -/
theorem chunksOfAux_flatMap (bs : Nat) (hbs : 0 < bs)
    (f : List InitRec → List InitRec) (hf : ∀ x, f x = x) :
    ∀ (fuel : Nat) (l : List InitRec), l.length ≤ fuel →
      (chunksOfAux bs fuel l).flatMap f = l := by
  intro fuel
  induction fuel with
  | zero =>
    intro l hl
    have : l = [] := List.length_eq_zero.mp (Nat.le_zero.mp hl)
    subst this
    simp [chunksOfAux]
  | succ fuel ih =>
    intro l hl
    cases l with
    | nil => simp [chunksOfAux]
    | cons a rest =>
      have hlen : ((a :: rest).drop bs).length ≤ fuel := by
        rw [List.length_drop]
        exact le_trans (le_trans (Nat.sub_le_sub_left hbs _)
          (le_of_eq (Nat.succ_sub_one _))) (Nat.succ_le_succ_iff.mp hl)
      simp only [chunksOfAux, List.flatMap_cons]
      rw [hf, ih _ hlen, List.take_append_drop]

/-- With no duplicates found, one batched pass hands its own input to the
recursive call. -/
theorem dedupStep_noDup :
    dedupStep noDupCompare mergeFallback 50 batchInput = Sum.inr batchInput := by
  have hlen : batchInput.length = 51 := by simp [batchInput]
  have hflat : (chunksOf 50 batchInput).flatMap (forward noDupCompare mergeFallback)
      = batchInput :=
    chunksOfAux_flatMap 50 (by norm_num) _ (forward_noDup mergeFallback) _ _ (le_refl _)
  rw [dedupStep]
  rw [if_neg (by rw [hlen]; norm_num)]
  simp only [hflat]
  rw [if_pos (by rw [hlen]; norm_num)]

/-! ## C1: greedy grouping direction -/

/-- C1 counterexample: with a pairwise test where A~B and B~C but not A~C,
candidate C does not join A's group (it opens its own group), refuting the
claim that C still joins A's group through the already-grouped B. -/
theorem greedy_grouping_counterexample :
    cEx (initText iA) (initText iB) = true ∧
    cEx (initText iB) (initText iC) = true ∧
    cEx (initText iA) (initText iC) = false ∧
    findDuplicateGroups cEx [iA, iB, iC] = [[iA, iB], [iC]] := by decide

/-- C1 (amended): grouping is greedy by seed, in input order: every group
consists of a seed followed by exactly those later not-yet-grouped candidates
that passed the pairwise test against the seed itself, and the seed of every
later group failed the test against every earlier seed.  Membership is never
earned by similarity to a non-seed member, so if A~B and B~C but not A~C,
C starts its own group instead of joining A's. -/
theorem greedy_grouping_by_seed (c : String → String → Bool) (inits : List InitRec) :
    (∀ g ∈ findDuplicateGroups c inits, ∃ a t, g = a :: t ∧ a ∈ inits ∧
      ∀ b ∈ t, c (initText a) (initText b) = true) ∧
    List.Pairwise (fun g h => ∀ a ∈ g.head?, ∀ b ∈ h.head?,
      c (initText a) (initText b) = false) (findDuplicateGroups c inits) :=
  ⟨findGroupsAux_spec c inits.length inits (le_refl _),
   findGroupsAux_heads c inits.length inits (le_refl _)⟩

/-- Witness for C1 (amended) on a concrete run. -/
theorem greedy_grouping_by_seed_witness :
    ∃ a t, ([iA, iB] : List InitRec) = a :: t ∧ a ∈ [iA, iB, iC] ∧
      ∀ b ∈ t, cEx (initText a) (initText b) = true :=
  (greedy_grouping_by_seed cEx [iA, iB, iC]).1 [iA, iB] (by decide)

/-! ## C5: idempotence of deduplication -/

/-- C5: deduplication with the deterministic fallback comparison (at any
threshold) and the deterministic fallback merge is idempotent: a second
`forward` pass over its own output returns it unchanged — same count, same
content, no further merges. -/
theorem dedup_idempotent (threshold : ℚ) (inits : List InitRec) :
    forward (fun a b => (simpleCompare threshold a b).1) mergeFallback
      (forward (fun a b => (simpleCompare threshold a b).1) mergeFallback inits) =
    forward (fun a b => (simpleCompare threshold a b).1) mergeFallback inits :=
  forward_eq_self_of_pairwise_false _ _ _
    (forward_output_pairwise (fun a b => (simpleCompare threshold a b).1) inits)

/-! ## C4: batched deduplication need not terminate -/

/-- C4: the spec claims `deduplicate_batch` always terminates because a pass
cannot increase the item count; but when a pass finds no duplicates the count
stays unchanged, and with 51 pairwise-dissimilar candidates at batch size 50
the recursion re-enters with its own input forever: no amount of fuel makes
the fuel-indexed model of the recursion return. -/
theorem dedupBatch_nonterminating (fuel : Nat) :
    dedupBatchFuel noDupCompare mergeFallback 50 fuel batchInput = none := by
  induction fuel with
  | zero => rw [dedupBatchFuel, dedupStep_noDup]
  | succ fuel ih => rw [dedupBatchFuel, dedupStep_noDup]; exact ih

/-! ## C2: extractor confidence handling -/

/-- C2 counterexample: a numeric confidence of 2 is kept verbatim — there is
no clamping into [0,1] — and a confidence on which `float(...)` raises makes
the whole item be dropped instead of being kept at 0.5. -/
theorem extractor_confidence_counterexample :
    (extractorForward [rawOver]).map (fun e => e.confidence) = [2] ∧
    ¬ ((2 : ℚ) ≤ 1) ∧
    extractorForward [rawBad] = [] := by decide

/-- C2 (amended): a missing confidence defaults to 0.5 and the item is kept;
a numeric confidence is stored exactly as given, without clamping (so values
outside [0,1] pass through); a non-convertible confidence drops that item
(and only it). -/
theorem extractor_confidence_amended :
    (∀ raws : List RawInit, ∀ x ∈ extractorForward raws, ∃ r ∈ raws,
      (r.confidence = RawConf.missing ∧ x.confidence = mkRat 1 2) ∨
      r.confidence = RawConf.num x.confidence) ∧
    (∀ r : RawInit, r.confidence = RawConf.invalid →
      ∀ raws : List RawInit, extractorForward (r :: raws) = extractorForward raws) := by
  constructor
  · intro raws x hx
    rw [extractorForward, List.mem_filterMap] at hx
    obtain ⟨r, hr, hb⟩ := hx
    refine ⟨r, hr, ?_⟩
    cases hc : r.confidence with
    | missing =>
      rw [buildInitiative, hc] at hb
      simp only [floatOfConf, Option.map_some'] at hb
      left
      exact ⟨rfl, by rw [← Option.some_inj.mp hb]⟩
    | num q =>
      rw [buildInitiative, hc] at hb
      simp only [floatOfConf, Option.map_some'] at hb
      right
      rw [← Option.some_inj.mp hb]
    | invalid =>
      rw [buildInitiative, hc] at hb
      simp [floatOfConf] at hb
  · intro r hr raws
    rw [extractorForward, extractorForward, List.filterMap_cons]
    rw [buildInitiative, hr]
    rfl

/-- Witness for C2 (amended): the 0.5 default on a missing key, and an
invalid item dropped without affecting its neighbours. -/
theorem extractor_confidence_amended_witness :
    (∃ r ∈ [rawMissing],
      (r.confidence = RawConf.missing ∧ extHalfItem.confidence = mkRat 1 2) ∨
      r.confidence = RawConf.num extHalfItem.confidence) ∧
    extractorForward (rawBad :: [rawOver]) = extractorForward [rawOver] :=
  ⟨extractor_confidence_amended.1 [rawMissing] extHalfItem (by decide),
   extractor_confidence_amended.2 rawBad (by decide) [rawOver]⟩

/-! ## C3: merged confidence and source ids -/

/-- C3 counterexample: merging two members that cite the same source chunk
keeps the duplicate — `source_chunk_ids` is a concatenation, not a
duplicate-free union — on both the model-backed and the fallback merge
paths. -/
theorem merge_sources_counterexample :
    (mergeGroup moEx [srcA, srcB]).source_chunk_ids = ["chunk-7", "chunk-7"] ∧
    ¬ (mergeGroup moEx [srcA, srcB]).source_chunk_ids.Nodup ∧
    (mergeFallback [srcA, srcB]).source_chunk_ids = ["chunk-7", "chunk-7"] := by decide

/-- The running maximum of the confidence fold never drops below its start. -/
theorem confFold_fst_le (g : List InitRec) : ∀ s : ℚ × String,
    s.1 ≤ (g.foldl (fun s i => if s.1 < i.confidence then (i.confidence, i.category) else s) s).1 := by
  induction g with
  | nil => intro s; exact le_refl _
  | cons i g ih =>
    intro s
    rw [List.foldl_cons]
    refine le_trans ?_ (ih _)
    by_cases h : s.1 < i.confidence
    · simp only [if_pos h]
      exact le_of_lt h
    · simp only [if_neg h]
      exact le_refl _

/-- The confidence fold dominates every member confidence. -/
theorem confFold_ub (g : List InitRec) : ∀ (s : ℚ × String) (i : InitRec), i ∈ g →
    i.confidence ≤ (g.foldl (fun s i => if s.1 < i.confidence then (i.confidence, i.category) else s) s).1 := by
  induction g with
  | nil => intro s i h; simp at h
  | cons j g ih =>
    intro s i h
    rw [List.foldl_cons]
    rcases List.mem_cons.mp h with rfl | h
    · refine le_trans ?_ (confFold_fst_le g _)
      by_cases hj : s.1 < i.confidence
      · simp only [if_pos hj]
        exact le_refl _
      · simp only [if_neg hj]
        exact le_of_not_lt hj
    · exact ih _ i h

/-- The confidence fold returns its start or some member confidence. -/
theorem confFold_mem (g : List InitRec) : ∀ s : ℚ × String,
    (g.foldl (fun s i => if s.1 < i.confidence then (i.confidence, i.category) else s) s).1 = s.1 ∨
    (g.foldl (fun s i => if s.1 < i.confidence then (i.confidence, i.category) else s) s).1 ∈
      g.map (fun i => i.confidence) := by
  induction g with
  | nil => intro s; left; rfl
  | cons j g ih =>
    intro s
    rcases ih (if s.1 < j.confidence then (j.confidence, j.category) else s) with h | h
    · by_cases hj : s.1 < j.confidence
      · right
        rw [List.foldl_cons, h, if_pos hj]
        simp
      · left
        rw [List.foldl_cons, h, if_neg hj]
    · right
      rw [List.foldl_cons]
      exact List.mem_cons_of_mem _ h

/-- C3 (amended): for a merged group of size ≥ 2 whose member confidences are
nonnegative (extractor items are), the merged confidence is the maximum of
the member confidences, and `source_chunk_ids` is the in-order concatenation
of the members' non-empty source chunk ids — duplicates included when two
members cite the same chunk — on both merge paths. -/
theorem merge_confidence_sources (mo : MergerOut) (g : List InitRec)
    (hg : 2 ≤ g.length) (hc : ∀ i ∈ g, 0 ≤ i.confidence) :
    ((mergeGroup mo g).confidence ∈ g.map (fun i => i.confidence) ∧
      ∀ i ∈ g, i.confidence ≤ (mergeGroup mo g).confidence) ∧
    (mergeGroup mo g).source_chunk_ids = g.filterMap (fun i => truthyStr i.source_chunk_id) ∧
    (mergeFallback g).source_chunk_ids = g.filterMap (fun i => truthyStr i.source_chunk_id) := by
  match g, hg with
  | a :: b :: t, _ =>
    have hconf : (mergeGroup mo (a :: b :: t)).confidence =
        ((a :: b :: t).foldl (fun s i => if s.1 < i.confidence then (i.confidence, i.category) else s)
          (0, ((a :: b :: t).head?.map (fun i => i.category)).getD "strategy")).1 := rfl
    refine ⟨⟨?_, ?_⟩, rfl, rfl⟩
    · rw [hconf]
      rcases confFold_mem (a :: b :: t)
        (0, ((a :: b :: t).head?.map (fun i => i.category)).getD "strategy") with h | h
      · have ha := confFold_ub (a :: b :: t)
          (0, ((a :: b :: t).head?.map (fun i => i.category)).getD "strategy")
          a (List.mem_cons_self a _)
        rw [h] at ha
        have := le_antisymm ha (hc a (List.mem_cons_self a _))
        rw [h, ← this]
        simp
      · exact h
    · intro i hi
      rw [hconf]
      exact confFold_ub (a :: b :: t) _ i hi

/-- Witness for C3 (amended) on a concrete two-member group. -/
theorem merge_confidence_sources_witness :
    (((mergeGroup moEx [srcA, srcB]).confidence ∈ [srcA, srcB].map (fun i => i.confidence) ∧
      ∀ i ∈ [srcA, srcB], i.confidence ≤ (mergeGroup moEx [srcA, srcB]).confidence) ∧
    (mergeGroup moEx [srcA, srcB]).source_chunk_ids =
      [srcA, srcB].filterMap (fun i => truthyStr i.source_chunk_id) ∧
    (mergeFallback [srcA, srcB]).source_chunk_ids =
      [srcA, srcB].filterMap (fun i => truthyStr i.source_chunk_id)) :=
  merge_confidence_sources moEx [srcA, srcB] (by decide) (by decide)

/-! ## C6: chunk id collision for slide documents -/

/-- C6: the pptx parser stores slides into `pages` under the key
`slide_number`, so `_chunk_page`'s `page.get("page_number", 1)` defaults to 1
for every slide: a two-slide document gets the same id for both chunks —
chunk ids are not pairwise distinct under the structural strategy. -/
theorem chunk_ids_collide_on_slides :
    (structuralChunkDocument 2000 slideDoc "doc").map Chunk.id = ["doc_page_1", "doc_page_1"] ∧
    ¬ ((structuralChunkDocument 2000 slideDoc "doc").map Chunk.id).Nodup := by decide

/-! ## Sortedness of the Python sort model -/

theorem mem_pyInsert {le : α → α → Bool} (x : α) :
    ∀ (l : List α) (z : α), z ∈ pyInsert le x l → z = x ∨ z ∈ l := by
  intro l
  induction l with
  | nil =>
    intro z hz
    simp [pyInsert] at hz
    exact Or.inl hz
  | cons y ys ih =>
    intro z hz
    rw [pyInsert] at hz
    by_cases h : le y x
    · rw [if_pos h] at hz
      rcases List.mem_cons.mp hz with rfl | hz
      · exact Or.inr (List.mem_cons_self _ _)
      · rcases ih z hz with hx | hys
        · exact Or.inl hx
        · exact Or.inr (List.mem_cons_of_mem _ hys)
    · rw [if_neg h] at hz
      rcases List.mem_cons.mp hz with rfl | hz
      · exact Or.inl rfl
      · exact Or.inr hz

theorem pyInsert_pairwise {le : α → α → Bool}
    (htrans : ∀ a b c, le a b = true → le b c = true → le a c = true)
    (htot : ∀ a b, le a b = true ∨ le b a = true) (x : α) :
    ∀ l : List α, l.Pairwise (fun a b => le a b = true) →
      (pyInsert le x l).Pairwise (fun a b => le a b = true) := by
  intro l
  induction l with
  | nil => intro _; simp [pyInsert]
  | cons y ys ih =>
    intro hp
    rcases List.pairwise_cons.mp hp with ⟨hy, hys⟩
    rw [pyInsert]
    by_cases h : le y x
    · rw [if_pos h]
      refine List.pairwise_cons.mpr ⟨?_, ih hys⟩
      intro z hz
      rcases mem_pyInsert x ys z hz with rfl | hz
      · exact h
      · exact hy z hz
    · rw [if_neg h]
      have hx : le x y = true := (htot x y).resolve_right (Bool.eq_false_iff.mp (by simpa using h) ∘ id)
      refine List.pairwise_cons.mpr ⟨?_, hp⟩
      intro z hz
      rcases List.mem_cons.mp hz with rfl | hz
      · exact hx
      · exact htrans x y z hx (hy z hz)

theorem pySort_pairwise (le : α → α → Bool)
    (htrans : ∀ a b c, le a b = true → le b c = true → le a c = true)
    (htot : ∀ a b, le a b = true ∨ le b a = true) (l : List α) :
    (pySort le l).Pairwise (fun a b => le a b = true) := by
  rw [pySort]
  suffices h : ∀ (l acc : List α), acc.Pairwise (fun a b => le a b = true) →
      (l.foldl (fun acc x => pyInsert le x acc) acc).Pairwise (fun a b => le a b = true) by
    exact h l [] (by simp)
  intro l
  induction l with
  | nil => intro acc h; exact h
  | cons x xs ih =>
    intro acc h
    rw [List.foldl_cons]
    exact ih _ (pyInsert_pairwise htrans htot x acc h)

/-- Sorting by descending score yields a non-increasing score sequence. -/
theorem pySort_descByScore (l : List RetrievalResult) :
    (pySort descByScore l).Pairwise (fun a b => b.score ≤ a.score) := by
  have h := pySort_pairwise descByScore
    (fun a b c hab hbc => decide_eq_true
      (le_trans (of_decide_eq_true hbc) (of_decide_eq_true hab)))
    (fun a b => by
      rcases le_total b.score a.score with h | h
      · exact Or.inl (decide_eq_true h)
      · exact Or.inr (decide_eq_true h)) l
  exact h.imp (fun hab => of_decide_eq_true hab)

theorem lexLe_total : ∀ s t : List Char, lexLe s t = true ∨ lexLe t s = true := by
  intro s
  induction s with
  | nil => intro t; left; rfl
  | cons a as ih =>
    intro t
    cases t with
    | nil => right; rfl
    | cons b bs =>
      rcases Nat.lt_trichotomy a.toNat b.toNat with h | h | h
      · left; simp [lexLe, h]
      · rcases ih bs with h2 | h2
        · left; simp [lexLe, h, Nat.lt_irrefl, h2]
        · right; simp [lexLe, h.symm, Nat.lt_irrefl, h2]
      · right; simp [lexLe, h]

theorem lexLe_trans : ∀ s t u : List Char,
    lexLe s t = true → lexLe t u = true → lexLe s u = true := by
  intro s
  induction s with
  | nil => intro t u _ _; rfl
  | cons a as ih =>
    intro t u h1 h2
    cases t with
    | nil => simp [lexLe] at h1
    | cons b bs =>
      cases u with
      | nil => simp [lexLe] at h2
      | cons c cs =>
        rw [lexLe] at h1 h2 ⊢
        by_cases hab : a.toNat < b.toNat
        · by_cases hbc : b.toNat < c.toNat
          · simp [lt_trans hab hbc]
          · by_cases hcb : c.toNat < b.toNat
            · simp [hbc, hcb] at h2
            · have hbc' : b.toNat = c.toNat :=
                le_antisymm (le_of_not_lt hcb) (le_of_not_lt hbc)
              simp [hbc' ▸ hab]
        · by_cases hba : b.toNat < a.toNat
          · simp [hab, hba] at h1
          · have hab' : a.toNat = b.toNat :=
              le_antisymm (le_of_not_lt hba) (le_of_not_lt hab)
            by_cases hbc : b.toNat < c.toNat
            · simp [hab' ▸ hbc]
            · by_cases hcb : c.toNat < b.toNat
              · simp [hbc, hcb] at h2
              · have hbc' : b.toNat = c.toNat :=
                  le_antisymm (le_of_not_lt hcb) (le_of_not_lt hbc)
                have h1' : lexLe as bs = true := by simpa [hab, hba] using h1
                have h2' : lexLe bs cs = true := by simpa [hbc, hcb] using h2
                have hac : ¬ a.toNat < c.toNat := by
                  rw [hab', hbc']; exact lt_irrefl _
                have hca : ¬ c.toNat < a.toNat := by
                  rw [hab', hbc']; exact lt_irrefl _
                simp [hac, hca, ih bs cs h1' h2']

/-- Sorting by ascending chunk id is sorted by chunk id. -/
theorem pySort_ascByChunkId (l : List RetrievalResult) :
    (pySort ascByChunkId l).Pairwise
      (fun a b => strLeB a.chunk_id b.chunk_id = true) :=
  pySort_pairwise ascByChunkId
    (fun _ _ _ hab hbc => lexLe_trans _ _ _ hab hbc)
    (fun a b => lexLe_total a.chunk_id.toList b.chunk_id.toList) l

/-! ## C8: ordering of retrieval results -/

/-- C8 counterexample: the context-window operation scores the centre chunk
1.0 and its neighbours 0.9 but sorts by chunk id, so with the centre in the
middle the returned score sequence rises from 0.9 to 1.0 — it is not
non-increasing. -/
theorem context_window_scores_counterexample :
    (getContextWindow "d_chunk_1" ctxChunks 1).map (fun r => r.score) =
      [mkRat 9 10, 1, mkRat 9 10] ∧
    ¬ List.Pairwise (fun a b : ℚ => b ≤ a)
      ((getContextWindow "d_chunk_1" ctxChunks 1).map (fun r => r.score)) := by decide

/-- C8 (amended): heuristic reranking and multi-query retrieval return
sequences whose scores are non-increasing; the context-window expansion
instead returns its results sorted by ascending chunk id (centre scored 1.0,
neighbours 0.9), so its score sequence need not be non-increasing. -/
theorem retrieval_ordering (query : String) (results : List RetrievalResult)
    (top_k : Nat) (perQuery : List (List RetrievalResult)) (chunkId : String)
    (companyChunks : List ChunkRec) (windowSize : Nat) :
    (rerankHeuristic query results top_k).Pairwise (fun a b => b.score ≤ a.score) ∧
    (retrieveMultiQuery perQuery top_k).Pairwise (fun a b => b.score ≤ a.score) ∧
    (getContextWindow chunkId companyChunks windowSize).Pairwise
      (fun a b => strLeB a.chunk_id b.chunk_id = true) := by
  refine ⟨?_, ?_, ?_⟩
  · exact List.Pairwise.sublist (List.take_sublist _ _) (pySort_descByScore _)
  · exact List.Pairwise.sublist (List.take_sublist _ _) (pySort_descByScore _)
  · rw [getContextWindow]
    cases parseChunkId chunkId with
    | none => simp
    | some p =>
      obtain ⟨document_id, center⟩ := p
      exact pySort_ascByChunkId _

/-! ## C10: category normalization -/

/-- C10: `_normalize_category` is total onto the closed vocabulary
{strategy, product, market, operational, financial}: after lowercasing and
stripping, vocabulary members map to themselves, alias-table keys map per the
table, and every other input maps to "strategy". -/
theorem normalizeCategory_total (s : String) :
    normalizeCategory s ∈ validCategories ∧
    (pyStrip (pyLower s) ∈ validCategories → normalizeCategory s = pyStrip (pyLower s)) ∧
    (∀ v, pyStrip (pyLower s) ∉ validCategories →
      categoryAliases.lookup (pyStrip (pyLower s)) = some v → normalizeCategory s = v) ∧
    (pyStrip (pyLower s) ∉ validCategories →
      categoryAliases.lookup (pyStrip (pyLower s)) = none → normalizeCategory s = "strategy") := by
  by_cases hn : pyStrip (pyLower s) ∈ validCategories
  · refine ⟨?_, ?_, ?_, ?_⟩
    · simp [normalizeCategory, hn]
    · intro _; simp [normalizeCategory, hn]
    · intro v hv; exact absurd hn hv
    · intro hv; exact absurd hn hv
  · have hmem : normalizeCategory s ∈ validCategories := by
      cases h : categoryAliases.lookup (pyStrip (pyLower s)) with
      | none => simp [normalizeCategory, hn, h]; decide
      | some v =>
        have hv := lookup_val_mem h
        have hsub : ∀ x ∈ categoryAliases.map Prod.snd, x ∈ validCategories := by decide
        simpa [normalizeCategory, hn, h] using hsub v hv
    refine ⟨hmem, fun hv => absurd hv hn, ?_, ?_⟩
    · intro v _ h; simp [normalizeCategory, hn, h]
    · intro _ h; simp [normalizeCategory, hn, h]

/-- Witness for C10 at concrete inputs: an alias with noise, a vocabulary
member, and an unknown word. -/
theorem normalizeCategory_total_witness :
    normalizeCategory " STRATEGIC " = "strategy" ∧
    normalizeCategory "Product" = "product" ∧
    normalizeCategory "weird" = "strategy" :=
  ⟨(normalizeCategory_total " STRATEGIC ").2.2.1 "strategy" (by decide) (by decide),
   (normalizeCategory_total "Product").2.1 (by decide),
   (normalizeCategory_total "weird").2.2.2 (by decide) (by decide)⟩

/-! ## C9: parser dispatch -/

/-- C9: `DocumentParser.parse` tries the registered parsers in their fixed
registration order (PDF, DOCX, PPTX, transcript, then the plain-text
fallback) and dispatches to the first parser whose `supports(filename)` is
true; when no parser supports the filename it fails with the
unsupported-file-type error and no parser is invoked. -/
theorem parseDispatch_first_match (filename : String) :
    (parseDispatch filename = Except.error ("Unsupported file type: " ++ pySuffix filename)
      ↔ ∀ p ∈ registeredParsers, supports p filename = false) ∧
    (∀ p, parseDispatch filename = Except.ok p →
      supports p filename = true ∧
      ∃ pre post, registeredParsers = pre ++ p :: post ∧
        ∀ q ∈ pre, supports q filename = false) := by
  cases h : registeredParsers.find? (fun p => supports p filename) with
  | none =>
    rw [List.find?_eq_none] at h
    constructor
    · constructor
      · intro _ p hp
        exact Bool.eq_false_iff.mpr (h p hp)
      · intro _
        simp [parseDispatch, List.find?_eq_none.mpr h]
    · intro p hp
      simp [parseDispatch, List.find?_eq_none.mpr h] at hp
  | some p =>
    obtain ⟨hsup, pre, post, hsplit, hpre⟩ := List.find?_eq_some.mp h
    constructor
    · constructor
      · intro herr
        simp [parseDispatch, h] at herr
      · intro hall
        exact absurd hsup (by simp [hall p (by simp [hsplit])])
    · intro q hq
      have : q = p := (by simpa [parseDispatch, h] using hq : p = q).symm
      subst this
      exact ⟨hsup, pre, post, hsplit, fun r hr => by simpa using hpre r hr⟩

/-- Witness for C9: `.xyz` hits the unsupported-format error; `notes.md`
dispatches to the plain-text fallback after the specialized parsers
declined. -/
theorem parseDispatch_first_match_witness :
    parseDispatch "report.xyz" = Except.error "Unsupported file type: .xyz" ∧
    supports ParserKind.text "notes.md" = true ∧
    (∃ pre post, registeredParsers = pre ++ ParserKind.text :: post ∧
      ∀ q ∈ pre, supports q "notes.md" = false) :=
  ⟨rfl,
   ((parseDispatch_first_match "notes.md").2 ParserKind.text rfl).1,
   ((parseDispatch_first_match "notes.md").2 ParserKind.text rfl).2⟩

/-! ## Blankness lemmas for the chunkers -/

theorem string_toList_inj {a b : String} (h : a.toList = b.toList) : a = b :=
  congrArg String.mk h

theorem dropWhile_forall_iff {p : α → Bool} :
    ∀ l : List α, (∀ x ∈ l.dropWhile p, p x = true) ↔ (∀ x ∈ l, p x = true) := by
  intro l
  induction l with
  | nil => simp
  | cons a l ih =>
    rw [List.dropWhile_cons]
    by_cases h : p a
    · rw [if_pos h]
      rw [ih]
      constructor
      · intro hall x hx
        rcases List.mem_cons.mp hx with rfl | hx
        · exact h
        · exact hall x hx
      · intro hall x hx
        exact hall x (List.mem_cons_of_mem _ hx)
    · rw [if_neg h]

theorem toList_append (s t : String) : (s ++ t).toList = s.toList ++ t.toList :=
  String.data_append s t

theorem pyStrip_eq_empty_iff (s : String) :
    pyStrip s = "" ↔ ∀ c ∈ s.toList, pyWs c = true := by
  rw [pyStrip]
  have hmk : ∀ l : List Char, String.mk l = "" ↔ l = [] := by
    intro l
    constructor
    · intro h
      have := congrArg String.toList h
      simpa using this
    · intro h
      rw [h]
  rw [hmk, List.reverse_eq_nil_iff, List.dropWhile_eq_nil_iff]
  constructor
  · intro h
    rw [← dropWhile_forall_iff (p := pyWs) s.toList]
    intro x hx
    exact h x (List.mem_reverse.mpr hx)
  · intro h x hx
    exact (dropWhile_forall_iff s.toList).mpr h x (List.mem_reverse.mp hx)

theorem pyStrip_ne_empty_iff (s : String) :
    pyStrip s ≠ "" ↔ ∃ c ∈ s.toList, pyWs c = false := by
  rw [Ne, pyStrip_eq_empty_iff]
  push_neg
  simp only [Bool.not_eq_true]

theorem mem_toList_append {s t : String} {c : Char} :
    c ∈ (s ++ t).toList ↔ c ∈ s.toList ∨ c ∈ t.toList := by
  rw [toList_append, List.mem_append]

theorem nonblank_append_right (s t : String) (h : pyStrip t ≠ "") :
    pyStrip (s ++ t) ≠ "" := by
  rw [pyStrip_ne_empty_iff] at h ⊢
  obtain ⟨c, hc, hw⟩ := h
  exact ⟨c, mem_toList_append.mpr (Or.inr hc), hw⟩

theorem joinSep_chars_of_mem (sep : String) :
    ∀ (l : List String) (x : String), x ∈ l → ∀ c ∈ x.toList,
      c ∈ (joinSep sep l).toList := by
  intro l
  induction l with
  | nil => intro x hx; simp at hx
  | cons y ys ih =>
    intro x hx c hc
    cases ys with
    | nil =>
      rw [List.mem_singleton] at hx
      subst hx
      exact hc
    | cons z zs =>
      rcases List.mem_cons.mp hx with rfl | hx
      · exact mem_toList_append.mpr (Or.inl (mem_toList_append.mpr (Or.inl hc)))
      · exact mem_toList_append.mpr (Or.inr (ih x hx c hc))

theorem joinSep_nonblank (sep : String) (l : List String) (x : String)
    (hx : x ∈ l) (hnb : pyStrip x ≠ "") : pyStrip (joinSep sep l) ≠ "" := by
  rw [pyStrip_ne_empty_iff] at hnb ⊢
  obtain ⟨c, hc, hw⟩ := hnb
  exact ⟨c, joinSep_chars_of_mem sep l x hx c hc, hw⟩

theorem joinSep_cons_ne (sep x : String) (xs : List String) (h : xs ≠ []) :
    joinSep sep (x :: xs) = x ++ sep ++ joinSep sep xs := by
  cases xs with
  | nil => exact absurd rfl h
  | cons y ys => rfl

/-! ## Word-splitting lemmas -/

theorem splitWsAux_words : ∀ (fuel : Nat) (l : List Char), l.length ≤ fuel →
    ∀ w ∈ splitWsAux fuel l, w ≠ [] ∧ ∀ c ∈ w, pyWs c = false := by
  intro fuel
  induction fuel with
  | zero =>
    intro l hl w hw
    have : l = [] := List.length_eq_zero.mp (Nat.le_zero.mp hl)
    subst this
    simp [splitWsAux] at hw
  | succ fuel ih =>
    intro l hl w hw
    cases l with
    | nil => simp [splitWsAux] at hw
    | cons c cs =>
      rw [splitWsAux] at hw
      by_cases h : pyWs c
      · rw [if_pos h] at hw
        exact ih cs (Nat.succ_le_succ_iff.mp hl) w hw
      · rw [if_neg h] at hw
        rcases List.mem_cons.mp hw with rfl | hw
        · refine ⟨List.cons_ne_nil _ _, ?_⟩
          intro d hd
          rcases List.mem_cons.mp hd with rfl | hd
          · exact Bool.eq_false_iff.mpr h
          · have := List.mem_takeWhile_imp hd
            simpa using this
        · have hlen : (cs.dropWhile (fun x => !pyWs x)).length ≤ fuel :=
            le_trans (List.dropWhile_sublist _).length_le (Nat.succ_le_succ_iff.mp hl)
          exact ih _ hlen w hw

theorem splitWsAux_ne_nil : ∀ (fuel : Nat) (l : List Char), l.length ≤ fuel →
    (∃ c ∈ l, pyWs c = false) → splitWsAux fuel l ≠ [] := by
  intro fuel
  induction fuel with
  | zero =>
    intro l hl h
    have : l = [] := List.length_eq_zero.mp (Nat.le_zero.mp hl)
    subst this
    simp at h
  | succ fuel ih =>
    intro l hl h
    cases l with
    | nil => simp at h
    | cons c cs =>
      rw [splitWsAux]
      by_cases hc : pyWs c
      · rw [if_pos hc]
        obtain ⟨d, hd, hw⟩ := h
        rcases List.mem_cons.mp hd with rfl | hd
        · rw [hc] at hw; exact absurd hw (by simp)
        · exact ih cs (Nat.succ_le_succ_iff.mp hl) ⟨d, hd, hw⟩
      · rw [if_neg hc]
        exact List.cons_ne_nil _ _

theorem pySplitWs_words (s : String) :
    ∀ w ∈ pySplitWs s, w.toList ≠ [] ∧ ∀ c ∈ w.toList, pyWs c = false := by
  intro w hw
  rw [pySplitWs] at hw
  obtain ⟨cw, hcw, rfl⟩ := List.mem_map.mp hw
  exact splitWsAux_words s.toList.length s.toList (le_refl _) cw hcw

theorem pySplitWs_ne_nil (s : String) (h : pyStrip s ≠ "") : pySplitWs s ≠ [] := by
  rw [pySplitWs, Ne, List.map_eq_nil_iff]
  exact splitWsAux_ne_nil s.toList.length s.toList (le_refl _)
    ((pyStrip_ne_empty_iff s).mp h)

theorem word_nonblank (w : String) (h1 : w.toList ≠ [])
    (h2 : ∀ c ∈ w.toList, pyWs c = false) : pyStrip w ≠ "" := by
  rw [pyStrip_ne_empty_iff]
  obtain ⟨c, hc⟩ := List.exists_mem_of_ne_nil _ h1
  exact ⟨c, hc, h2 c hc⟩

/-! ## Separator-splitting lemmas -/

theorem isPrefixOf_append : ∀ (p l : List Char), p.isPrefixOf l = true →
    p ++ l.drop p.length = l := by
  intro p
  induction p with
  | nil => intro l _; rfl
  | cons a p ih =>
    intro l h
    cases l with
    | nil => simp [List.isPrefixOf] at h
    | cons b l =>
      have h' : a = b ∧ p.isPrefixOf l = true := by
        simpa [List.isPrefixOf] using h
      obtain ⟨rfl, hrec⟩ := h'
      simpa using ih l hrec

theorem splitOnAux_ne_nil : ∀ (sep : List Char) (fuel : Nat) (acc l : List Char),
    splitOnAux sep fuel acc l ≠ [] := by
  intro sep fuel
  induction fuel with
  | zero =>
    intro acc l
    cases l with
    | nil => simp [splitOnAux]
    | cons c cs => simp [splitOnAux]
  | succ fuel ih =>
    intro acc l
    cases l with
    | nil => simp [splitOnAux]
    | cons c cs =>
      rw [splitOnAux]
      by_cases h : sep.isPrefixOf (c :: cs)
      · rw [if_pos h]
        exact List.cons_ne_nil _ _
      · rw [if_neg h]
        exact ih _ _

theorem pySplitOn_ne_nil (sep s : String) : pySplitOn sep s ≠ [] := by
  rw [pySplitOn, Ne, List.map_eq_nil_iff]
  exact splitOnAux_ne_nil _ _ _ _

theorem splitOnAux_join (sep : String) (hsep : sep.toList ≠ []) :
    ∀ (fuel : Nat) (acc l : List Char), l.length ≤ fuel →
      (joinSep sep ((splitOnAux sep.toList fuel acc l).map String.mk)).toList
        = acc.reverse ++ l := by
  intro fuel
  induction fuel with
  | zero =>
    intro acc l hl
    have : l = [] := List.length_eq_zero.mp (Nat.le_zero.mp hl)
    subst this
    simp [splitOnAux, joinSep]
  | succ fuel ih =>
    intro acc l hl
    cases l with
    | nil => simp [splitOnAux, joinSep]
    | cons c cs =>
      rw [splitOnAux]
      by_cases h : sep.toList.isPrefixOf (c :: cs)
      · rw [if_pos h]
        have hlen : ((c :: cs).drop sep.toList.length).length ≤ fuel := by
          rw [List.length_drop]
          have hsep1 : 1 ≤ sep.toList.length :=
            Nat.one_le_iff_ne_zero.mpr (fun hh => hsep (List.length_eq_zero.mp hh))
          calc (c :: cs).length - sep.toList.length ≤ (c :: cs).length - 1 :=
                Nat.sub_le_sub_left hsep1 _
            _ = cs.length := Nat.succ_sub_one _
            _ ≤ fuel := Nat.succ_le_succ_iff.mp hl
        rw [List.map_cons,
          joinSep_cons_ne sep _ _ (by
            rw [Ne, List.map_eq_nil_iff]
            exact splitOnAux_ne_nil _ _ _ _)]
        have hj := ih [] ((c :: cs).drop sep.toList.length) hlen
        simp only [List.reverse_nil, List.nil_append] at hj
        rw [toList_append, toList_append, hj]
        have hmk : (String.mk acc.reverse).toList = acc.reverse := rfl
        rw [hmk, List.append_assoc]
        congr 1
        exact isPrefixOf_append sep.toList (c :: cs) h
      · rw [if_neg h]
        rw [ih (c :: acc) cs (Nat.succ_le_succ_iff.mp hl)]
        simp

theorem pySplitOn_join (sep s : String) (hsep : sep.toList ≠ []) :
    joinSep sep (pySplitOn sep s) = s := by
  apply string_toList_inj
  rw [pySplitOn]
  have := splitOnAux_join sep hsep s.toList.length [] s.toList (le_refl _)
  simpa using this

/-! ## Structural chunker: non-blankness of emitted chunks -/

theorem pageStep_eq (M : Nat) (docId : String) (pageNum : Int)
    (st : List Chunk × List String × Nat) (w : String) :
    pageStep M docId pageNum st w =
      if M < st.2.2 + (w.length + 1) ∧ st.2.1 ≠ [] then
        (st.1 ++ [⟨docId ++ "_page_" ++ toString pageNum ++ "_part_" ++ toString st.1.length,
          joinSep " " st.2.1⟩], [w], 0 + (w.length + 1))
      else (st.1, st.2.1 ++ [w], st.2.2 + (w.length + 1)) := by
  simp only [pageStep]
  by_cases h : M < st.2.2 + (w.length + 1) ∧ st.2.1 ≠ []
  · rw [if_pos h, if_pos h]
    rfl
  · rw [if_neg h, if_neg h]

theorem pageFold_inv (M : Nat) (docId : String) (pageNum : Int) :
    ∀ ws : List String, (∀ w ∈ ws, w.toList ≠ [] ∧ ∀ c ∈ w.toList, pyWs c = false) →
    ∀ st : List Chunk × List String × Nat,
      (∀ ch ∈ st.1, pyStrip ch.text ≠ "") →
      (∀ w ∈ st.2.1, w.toList ≠ [] ∧ ∀ c ∈ w.toList, pyWs c = false) →
      (∀ ch ∈ (ws.foldl (pageStep M docId pageNum) st).1, pyStrip ch.text ≠ "") ∧
      (∀ w ∈ (ws.foldl (pageStep M docId pageNum) st).2.1,
        w.toList ≠ [] ∧ ∀ c ∈ w.toList, pyWs c = false) := by
  intro ws
  induction ws with
  | nil => intro _ st h1 h2; exact ⟨h1, h2⟩
  | cons w ws ih =>
    intro hws st h1 h2
    have hw := hws w (List.mem_cons_self _ _)
    rw [List.foldl_cons, pageStep_eq]
    by_cases hcond : M < st.2.2 + (w.length + 1) ∧ st.2.1 ≠ []
    · rw [if_pos hcond]
      refine ih (fun x hx => hws x (List.mem_cons_of_mem _ hx)) _ ?_ ?_
      · intro ch hch
        rcases List.mem_append.mp hch with hch | hch
        · exact h1 ch hch
        · rw [List.mem_singleton] at hch
          subst hch
          obtain ⟨x, hx⟩ := List.exists_mem_of_ne_nil _ hcond.2
          exact joinSep_nonblank " " _ x hx (word_nonblank x (h2 x hx).1 (h2 x hx).2)
      · intro x hx
        rw [List.mem_singleton] at hx
        subst hx
        exact hw
    · rw [if_neg hcond]
      refine ih (fun x hx => hws x (List.mem_cons_of_mem _ hx)) _ h1 ?_
      intro x hx
      rcases List.mem_append.mp hx with hx | hx
      · exact h2 x hx
      · rw [List.mem_singleton] at hx
        subst hx
        exact hw

/-- Every chunk `_chunk_page` emits for a non-blank page is non-blank. -/
theorem chunkPage_nonblank (M : Nat) (docId : String) (page : Page)
    (h : pyStrip page.text ≠ "") :
    ∀ ch ∈ chunkPage M docId page, pyStrip ch.text ≠ "" := by
  intro ch hch
  simp only [chunkPage] at hch
  by_cases hlen : page.text.length ≤ M
  · rw [if_pos hlen] at hch
    rw [List.mem_singleton] at hch
    subst hch
    exact h
  · rw [if_neg hlen] at hch
    have hinv := pageFold_inv M docId (page.page_number.getD 1) (pySplitWs page.text)
      (pySplitWs_words page.text) ([], [], 0) (by simp) (by simp)
    rcases List.mem_append.mp hch with hch | hch
    · exact hinv.1 ch hch
    · by_cases hcur :
        ((pySplitWs page.text).foldl (pageStep M docId (page.page_number.getD 1))
          ([], [], 0)).2.1 ≠ []
      · rw [if_pos hcur] at hch
        rw [List.mem_singleton] at hch
        subst hch
        obtain ⟨x, hx⟩ := List.exists_mem_of_ne_nil _ hcur
        exact joinSep_nonblank " " _ x hx
          (word_nonblank x (hinv.2 x hx).1 (hinv.2 x hx).2)
      · rw [if_neg hcur] at hch
        simp at hch

theorem sectionStep_eq (M : Nat) (docId : String) (sectionIdx : Nat) (heading : String)
    (st : List Chunk × List String × Nat) (para : String) :
    sectionStep M docId sectionIdx heading st para =
      if M < st.2.2 + para.length ∧ 1 < st.2.1.length then
        (st.1 ++ [⟨docId ++ "_section_" ++ toString sectionIdx ++ "_part_" ++ toString st.1.length,
          joinSep "\n\n" st.2.1⟩],
         (if heading ≠ "" then [continuedMarker heading] else []) ++ [para],
         (if heading ≠ "" then (continuedMarker heading).length else 0) + para.length)
      else (st.1, st.2.1 ++ [para], st.2.2 + para.length) := by
  simp only [sectionStep]
  by_cases h : M < st.2.2 + para.length ∧ 1 < st.2.1.length
  · rw [if_pos h, if_pos h]
  · rw [if_neg h, if_neg h]

theorem sectionFold_inv (M : Nat) (docId : String) (sectionIdx : Nat) (heading : String) :
    ∀ ps : List String, (∀ p ∈ ps, pyStrip p ≠ "") →
    ∀ st : List Chunk × List String × Nat,
      (∀ ch ∈ st.1, pyStrip ch.text ≠ "") →
      (1 < st.2.1.length → ∃ x ∈ st.2.1, pyStrip x ≠ "") →
      (∀ ch ∈ (ps.foldl (sectionStep M docId sectionIdx heading) st).1, pyStrip ch.text ≠ "") ∧
      (1 < (ps.foldl (sectionStep M docId sectionIdx heading) st).2.1.length →
        ∃ x ∈ (ps.foldl (sectionStep M docId sectionIdx heading) st).2.1, pyStrip x ≠ "") ∧
      ((ps ≠ [] ∨ ∃ x ∈ st.2.1, pyStrip x ≠ "") →
        ∃ x ∈ (ps.foldl (sectionStep M docId sectionIdx heading) st).2.1, pyStrip x ≠ "") := by
  intro ps
  induction ps with
  | nil =>
    intro _ st h1 h2
    refine ⟨h1, h2, ?_⟩
    intro h
    rcases h with h | h
    · exact absurd rfl h
    · exact h
  | cons p ps ih =>
    intro hps st h1 h2
    have hp := hps p (List.mem_cons_self _ _)
    rw [List.foldl_cons, sectionStep_eq]
    by_cases hcond : M < st.2.2 + p.length ∧ 1 < st.2.1.length
    · rw [if_pos hcond]
      have h1' : ∀ ch ∈ st.1 ++
          [(⟨docId ++ "_section_" ++ toString sectionIdx ++ "_part_" ++ toString st.1.length,
            joinSep "\n\n" st.2.1⟩ : Chunk)], pyStrip ch.text ≠ "" := by
        intro ch hch
        rcases List.mem_append.mp hch with hch | hch
        · exact h1 ch hch
        · rw [List.mem_singleton] at hch
          subst hch
          obtain ⟨x, hx, hxnb⟩ := h2 hcond.2
          exact joinSep_nonblank "\n\n" _ x hx hxnb
      have hmem : p ∈ (if heading ≠ "" then [continuedMarker heading] else []) ++ [p] :=
        List.mem_append.mpr (Or.inr (List.mem_singleton.mpr rfl))
      have hnext := ih (fun x hx => hps x (List.mem_cons_of_mem _ hx))
        (st.1 ++ [⟨docId ++ "_section_" ++ toString sectionIdx ++ "_part_" ++ toString st.1.length,
          joinSep "\n\n" st.2.1⟩],
         (if heading ≠ "" then [continuedMarker heading] else []) ++ [p],
         (if heading ≠ "" then (continuedMarker heading).length else 0) + p.length)
        h1' (fun _ => ⟨p, hmem, hp⟩)
      exact ⟨hnext.1, hnext.2.1, fun _ => hnext.2.2 (Or.inr ⟨p, hmem, hp⟩)⟩
    · rw [if_neg hcond]
      have hmem : p ∈ st.2.1 ++ [p] :=
        List.mem_append.mpr (Or.inr (List.mem_singleton.mpr rfl))
      have hnext := ih (fun x hx => hps x (List.mem_cons_of_mem _ hx))
        (st.1, st.2.1 ++ [p], st.2.2 + p.length) h1 (fun _ => ⟨p, hmem, hp⟩)
      exact ⟨hnext.1, hnext.2.1, fun _ => hnext.2.2 (Or.inr ⟨p, hmem, hp⟩)⟩

/-- Every chunk `_chunk_section` emits for a section whose paragraphs are all
non-blank is non-blank. -/
theorem chunkSection_nonblank (M : Nat) (docId : String) (sectionIdx : Nat)
    (sec : DocSection)
    (hps : ∀ p ∈ pySplitOn "\n\n" (joinSep "\n" sec.content), pyStrip p ≠ "") :
    ∀ ch ∈ chunkSection M docId sectionIdx sec, pyStrip ch.text ≠ "" := by
  have htext : pyStrip (joinSep "\n" sec.content) ≠ "" := by
    obtain ⟨p, hpmem⟩ := List.exists_mem_of_ne_nil _ (pySplitOn_ne_nil "\n\n" _)
    have := joinSep_nonblank "\n\n" _ p hpmem (hps p hpmem)
    rw [pySplitOn_join "\n\n" _ (by decide)] at this
    exact this
  intro ch hch
  simp only [chunkSection] at hch
  by_cases hlen :
      (if sec.heading ≠ "" then sec.heading ++ "\n\n" ++ joinSep "\n" sec.content
       else joinSep "\n" sec.content).length ≤ M
  · rw [if_pos hlen] at hch
    rw [List.mem_singleton] at hch
    subst hch
    by_cases hh : sec.heading ≠ ""
    · simp only [if_pos hh]
      exact nonblank_append_right _ _ htext
    · simp only [if_neg hh]
      exact htext
  · rw [if_neg hlen] at hch
    have hfold := sectionFold_inv M docId sectionIdx sec.heading
      (pySplitOn "\n\n" (joinSep "\n" sec.content)) hps
      ([], if sec.heading ≠ "" then [sec.heading] else [],
        if sec.heading ≠ "" then sec.heading.length else 0)
      (by simp)
      (by
        intro hlt
        by_cases hh : sec.heading ≠ "" <;> simp [hh] at hlt)
    rcases List.mem_append.mp hch with hch | hch
    · exact hfold.1 ch hch
    · by_cases hcur :
        ((pySplitOn "\n\n" (joinSep "\n" sec.content)).foldl
          (sectionStep M docId sectionIdx sec.heading)
          ([], if sec.heading ≠ "" then [sec.heading] else [],
            if sec.heading ≠ "" then sec.heading.length else 0)).2.1 ≠ []
      · rw [if_pos hcur] at hch
        rw [List.mem_singleton] at hch
        subst hch
        obtain ⟨x, hx, hxnb⟩ := hfold.2.2 (Or.inl (pySplitOn_ne_nil "\n\n" _))
        exact joinSep_nonblank "\n\n" _ x hx hxnb
      · rw [if_neg hcur] at hch
        simp at hch

theorem textStep_eq (M : Nat) (docId : String)
    (st : List Chunk × List String × Nat) (para : String) :
    textStep M docId st para =
      if M < st.2.2 + para.length ∧ st.2.1 ≠ [] then
        (st.1 ++ [⟨docId ++ "_chunk_" ++ toString st.1.length, joinSep "\n\n" st.2.1⟩],
         [para], 0 + para.length)
      else (st.1, st.2.1 ++ [para], st.2.2 + para.length) := by
  simp only [textStep]
  by_cases h : M < st.2.2 + para.length ∧ st.2.1 ≠ []
  · rw [if_pos h, if_pos h]
    rfl
  · rw [if_neg h, if_neg h]

theorem textFold_inv (M : Nat) (docId : String) :
    ∀ ps : List String, (∀ p ∈ ps, pyStrip p ≠ "") →
    ∀ st : List Chunk × List String × Nat,
      (∀ ch ∈ st.1, pyStrip ch.text ≠ "") →
      (st.2.1 ≠ [] → ∃ x ∈ st.2.1, pyStrip x ≠ "") →
      (∀ ch ∈ (ps.foldl (textStep M docId) st).1, pyStrip ch.text ≠ "") ∧
      ((ps.foldl (textStep M docId) st).2.1 ≠ [] →
        ∃ x ∈ (ps.foldl (textStep M docId) st).2.1, pyStrip x ≠ "") := by
  intro ps
  induction ps with
  | nil => intro _ st h1 h2; exact ⟨h1, h2⟩
  | cons p ps ih =>
    intro hps st h1 h2
    have hp := hps p (List.mem_cons_self _ _)
    rw [List.foldl_cons, textStep_eq]
    by_cases hcond : M < st.2.2 + p.length ∧ st.2.1 ≠ []
    · rw [if_pos hcond]
      refine ih (fun x hx => hps x (List.mem_cons_of_mem _ hx)) _ ?_
        (fun _ => ⟨p, List.mem_singleton.mpr rfl, hp⟩)
      intro ch hch
      rcases List.mem_append.mp hch with hch | hch
      · exact h1 ch hch
      · rw [List.mem_singleton] at hch
        subst hch
        obtain ⟨x, hx, hxnb⟩ := h2 hcond.2
        exact joinSep_nonblank "\n\n" _ x hx hxnb
    · rw [if_neg hcond]
      exact ih (fun x hx => hps x (List.mem_cons_of_mem _ hx)) _ h1
        (fun _ => ⟨p, List.mem_append.mpr (Or.inr (List.mem_singleton.mpr rfl)), hp⟩)

/-- Every chunk `_chunk_text` emits for a text whose paragraphs are all
non-blank is non-blank. -/
theorem chunkTextFallback_nonblank (M : Nat) (docId : String) (text : String)
    (hps : ∀ p ∈ pySplitOn "\n\n" text, pyStrip p ≠ "") :
    ∀ ch ∈ chunkTextFallback M docId text, pyStrip ch.text ≠ "" := by
  intro ch hch
  simp only [chunkTextFallback] at hch
  have hfold := textFold_inv M docId (pySplitOn "\n\n" text) hps ([], [], 0)
    (by simp) (by simp)
  rcases List.mem_append.mp hch with hch | hch
  · exact hfold.1 ch hch
  · by_cases hcur : ((pySplitOn "\n\n" text).foldl (textStep M docId) ([], [], 0)).2.1 ≠ []
    · rw [if_pos hcur] at hch
      rw [List.mem_singleton] at hch
      subst hch
      obtain ⟨x, hx, hxnb⟩ := hfold.2 hcur
      exact joinSep_nonblank "\n\n" _ x hx hxnb
    · rw [if_neg hcur] at hch
      simp at hch

/-- A table with at least one row renders to a non-blank markdown text. -/
theorem tableToText_nonblank (data : List (List String)) (h : data ≠ []) :
    pyStrip (tableToText data) ≠ "" := by
  obtain ⟨row, rows, rfl⟩ : ∃ r rs, data = r :: rs := by
    cases data with
    | nil => exact absurd rfl h
    | cons r rs => exact ⟨r, rs, rfl⟩
  rw [tableToText, if_neg h]
  have hline : ("| " ++ joinSep " | " row ++ " |") ∈
      ((row :: rows).enum.flatMap (fun p =>
        let line := "| " ++ joinSep " | " p.2 ++ " |"
        if p.1 = 0 then [line, "| " ++ joinSep " | " (p.2.map (fun _ => "---")) ++ " |"]
        else [line])) := by
    rw [List.enum_cons, List.flatMap_cons]
    simp
  refine joinSep_nonblank "\n" _ _ hline ?_
  rw [pyStrip_ne_empty_iff]
  refine ⟨'|', ?_, by decide⟩
  exact mem_toList_append.mpr (Or.inl (mem_toList_append.mpr (Or.inl (by decide))))

/-- Every table chunk for tables with at least one row is non-blank. -/
theorem chunkTables_nonblank (docId : String) (tables : List DocTable)
    (h : ∀ t ∈ tables, t.data ≠ []) :
    ∀ ch ∈ chunkTables docId tables, pyStrip ch.text ≠ "" := by
  intro ch hch
  rw [chunkTables] at hch
  obtain ⟨p, hp, rfl⟩ := List.mem_map.mp hch
  exact tableToText_nonblank _ (h p.2 (List.snd_mem_of_mem_enum hp))

/-! ## C7: chunk texts non-empty after trimming -/

/-- C7 counterexample: a page whose text is empty (as the PDF parser emits
for a blank page) is turned into a chunk whose text is empty after
trimming. -/
theorem chunk_text_blank_counterexample :
    ∃ ch ∈ structuralChunkDocument 2000 blankPageDoc "doc", pyStrip ch.text = "" := by
  decide

/-- C7 (amended): chunk texts are non-empty after trimming provided the
structural units fed to the chunker are: every page text is non-blank, every
section's paragraphs are non-blank, every paragraph of the plain-text
fallback is non-blank, and every table has at least one row; semantic chunks
are non-blank whenever the splitter's node contents are.  (A blank page,
blank section, blank paragraph or row-less table produces a blank chunk.) -/
theorem chunk_text_nonblank (M : Nat) (docId : String) (doc : ParsedDocument)
    (nodeTexts : List String)
    (h1 : ∀ p ∈ doc.pages.getD [], pyStrip p.text ≠ "")
    (h2 : doc.pages.getD [] = [] → ∀ sec ∈ doc.sections.getD [],
      ∀ para ∈ pySplitOn "\n\n" (joinSep "\n" sec.content), pyStrip para ≠ "")
    (h3 : doc.pages.getD [] = [] → doc.sections.getD [] = [] →
      ∀ para ∈ pySplitOn "\n\n" doc.text, pyStrip para ≠ "")
    (h4 : ∀ t ∈ doc.tables.getD [], t.data ≠ [])
    (h5 : ∀ t ∈ nodeTexts, pyStrip t ≠ "") :
    (∀ ch ∈ structuralChunkDocument M doc docId, pyStrip ch.text ≠ "") ∧
    (∀ ch ∈ semanticChunkDocument docId nodeTexts, pyStrip ch.text ≠ "") := by
  constructor
  · intro ch hch
    simp only [structuralChunkDocument] at hch
    rcases List.mem_append.mp hch with hch | hch
    · by_cases hpg : doc.pages.getD [] ≠ []
      · rw [if_pos hpg] at hch
        obtain ⟨page, hpage, hch⟩ := List.mem_flatMap.mp hch
        exact chunkPage_nonblank M docId page (h1 page hpage) ch hch
      · rw [if_neg hpg] at hch
        have hpg' : doc.pages.getD [] = [] := not_not.mp hpg
        by_cases hsec : doc.sections.getD [] ≠ []
        · rw [if_pos hsec] at hch
          obtain ⟨p, hpmem, hch⟩ := List.mem_flatMap.mp hch
          exact chunkSection_nonblank M docId p.1 p.2
            (h2 hpg' p.2 (List.snd_mem_of_mem_enum hpmem)) ch hch
        · rw [if_neg hsec] at hch
          exact chunkTextFallback_nonblank M docId doc.text
            (h3 hpg' (not_not.mp hsec)) ch hch
    · by_cases htab : doc.tables.getD [] ≠ []
      · rw [if_pos htab] at hch
        exact chunkTables_nonblank docId _ h4 ch hch
      · rw [if_neg htab] at hch
        simp at hch
  · intro ch hch
    rw [semanticChunkDocument] at hch
    obtain ⟨p, hp, rfl⟩ := List.mem_map.mp hch
    exact h5 p.2 (List.snd_mem_of_mem_enum hp)

/-- Witness for C7 (amended) on a concrete well-formed document. -/
theorem chunk_text_nonblank_witness :
    (∀ ch ∈ structuralChunkDocument 2000 pageDocW "doc", pyStrip ch.text ≠ "") ∧
    (∀ ch ∈ semanticChunkDocument "doc" ["node text"], pyStrip ch.text ≠ "") :=
  chunk_text_nonblank 2000 "doc" pageDocW ["node text"]
    (by decide) (by decide) (by decide) (by decide) (by decide)

end MgmtSays
